import Mathlib

/-!
Verification development for the ReadmeForge repository (`src/app.py`).

The Python source is shallowly embedded over `List Char`.  Strings are lists of
characters; Python `str.strip`, `str.split`, `str.join`, slicing and
`startswith` / `endswith` / `in` are modelled by executable Lean functions with
the same semantics.  The two remote services (GitHub REST API, Gemini) and the
standard-library URL parser are external collaborators and enter the model as
explicit inputs (an `Oracles` record holding the responses for one request, and
the URL path component computed by `urllib.parse.urlparse`).
-/

/-- Character strings, modelled as lists of characters. -/
abbrev Str := List Char

/-- Whitespace predicate of Python `str.strip()` (space, tab, newline,
carriage return, vertical tab, form feed). -/
def pyWs (c : Char) : Bool :=
  c = ' ' || c = '\t' || c = '\n' || c = '\r' || c = '\x0b' || c = '\x0c'

/-- Drop the characters satisfying `p` from both ends of a string, the way
Python `str.strip` does. -/
def stripBoth (p : Char → Bool) (s : Str) : Str :=
  ((s.dropWhile p).reverse.dropWhile p).reverse

/-- Python `s.strip()`: drop whitespace from both ends. -/
def pyStrip (s : Str) : Str := stripBoth pyWs s

/-- Python `s.strip(c)` for a single stripped character `c`. -/
def stripChar (c : Char) (s : Str) : Str := stripBoth (· = c) s

/-- Python `s.split(sep)` for a one-character separator: splits at every
occurrence of `sep`, keeping empty pieces (so `"a//b".split('/')` is
`["a", "", "b"]` and `"".split('/')` is `[""]`). -/
def splitOnC (sep : Char) : Str → List Str
  | [] => [[]]
  | a :: as =>
    let r := splitOnC sep as
    if a = sep then [] :: r
    else
      match r with
      | [] => [[a]]
      | h :: t => (a :: h) :: t

/-- Python `sep.join(pieces)` for a one-character separator. -/
def joinC (sep : Char) : List Str → Str
  | [] => []
  | [x] => x
  | x :: xs => x ++ sep :: joinC sep xs

/-- `GitHubRepoAnalyzer.parse_github_url` (src/app.py lines 33-39), acting on
the path component produced by `urllib.parse.urlparse` (a standard-library
call; its result is the input here).  `Except.error` models the raised
`ValueError("Invalid GitHub URL")`. -/
def parse_github_url (path : Str) : Except Str (Str × Str) :=
  let path_parts := splitOnC '/' (stripChar '/' path)
  if 2 ≤ path_parts.length then
    .ok (path_parts.headI, path_parts.tail.headI)
  else
    .error "Invalid GitHub URL".toList

/-- Written from the spec's wording for comparison with the code: the
non-empty segments of a URL path. -/
def nonEmptySegs (path : Str) : List Str :=
  (splitOnC '/' path).filter (fun s => !s.isEmpty)

/-- One entry of the GitHub tree response: the `path` and `type` fields read
by `get_important_files`. -/
structure TreeItem where
  path : Str
  itemType : Str
deriving DecidableEq

/-- The skip markers of src/app.py line 94. -/
def skipMarkers : List Str :=
  ["node_modules", ".git", "dist", "build", "vendor"].map String.toList

/-- The prioritized source-code extensions of src/app.py line 98. -/
def codeExts : List Str :=
  [".py", ".js", ".java", ".cpp", ".c", ".go", ".rs", ".rb", ".php"].map String.toList

/-- The package-manifest file names of src/app.py lines 80-83. -/
def package_files : List Str :=
  ["package.json", "requirements.txt", "Gemfile", "composer.json",
   "pom.xml", "build.gradle", "Cargo.toml", "go.mod"].map String.toList

/-- Python substring membership `n in h`. -/
def strIn (n h : Str) : Bool := decide (n <:+: h)

/-- Python `s.lower()`. -/
def lowerStr (s : Str) : Str := s.map Char.toLower

/-- Python `s.upper()`. -/
def upperStr (s : Str) : Str := s.map Char.toUpper

/-- Line 94: `any(skip in path.lower() for skip in [...])`. -/
def isSkipped (path : Str) : Bool :=
  skipMarkers.any (fun m => strIn m (lowerStr path))

/-- Line 98: `any(path.endswith(ext) for ext in [...])`. -/
def isCode (path : Str) : Bool :=
  codeExts.any (fun e => e.isSuffixOf path)

/-- Line 102: `any(pf in path for pf in package_files)` (substring match on
the unlowered path). -/
def isManifest (path : Str) : Bool :=
  package_files.any (fun m => strIn m path)

/-- The keys of an insertion-ordered mapping, in iteration order. -/
def keysOf (d : List (Str × Option Str)) : List Str := d.map Prod.fst

/-- Python dict assignment `d[k] = v`: if the key is present its value is
updated in place (iteration order preserved), otherwise the pair is appended
at the end. -/
def dictInsert (d : List (Str × Option Str)) (k : Str) (v : Option Str) :
    List (Str × Option Str) :=
  if k ∈ keysOf d then d.map (fun e => if e.1 = k then (k, v) else e)
  else d ++ [(k, v)]

/-- The loop body of src/app.py lines 90-103: traverse one tree item,
collecting code-file paths and inserting manifest-file contents.  The
accumulator is `(important_files, code_files)`. -/
def selStep (fetch : Str → Option Str) (acc : List (Str × Option Str) × List Str)
    (item : TreeItem) : List (Str × Option Str) × List Str :=
  if item.itemType = "blob".toList then
    let path := item.path
    if isSkipped path then acc
    else
      let acc1 := if isCode path then (acc.1, acc.2 ++ [path]) else acc
      if isManifest path then (dictInsert acc1.1 path (fetch path), acc1.2) else acc1
  else acc

/-- The loop body of src/app.py lines 106-109: fetch one code file and store
its first 2000 characters when the content is truthy (`if content:`,
i.e. neither `None` nor empty). -/
def codeStep (fetch : Str → Option Str) (files : List (Str × Option Str))
    (p : Str) : List (Str × Option Str) :=
  match fetch p with
  | some c => if c = [] then files else dictInsert files p (some (c.take 2000))
  | none => files

/-- `GitHubRepoAnalyzer.get_important_files` (src/app.py lines 75-114).
`fetch` models `get_file_content` (returning `none` when the response has no
usable content); `treeE` models the outcome of `get_file_tree`, whose raised
exception is caught by the surrounding `try` so that the accumulated (empty)
selection is returned. -/
def get_important_files (fetch : Str → Option Str)
    (treeE : Except Str (List TreeItem)) : List (Str × Option Str) :=
  match treeE with
  | .error _ => []
  | .ok tree =>
    let acc := tree.foldl (selStep fetch) ([], [])
    (acc.2.take 5).foldl (codeStep fetch) acc.1

/-- The code-file paths collected by the traversal of `get_important_files`,
in tree order: non-excluded blobs whose path ends with a code extension. -/
def collectCode (tree : List TreeItem) : List Str :=
  (tree.filter (fun it => decide (it.itemType = "blob".toList)
    && !isSkipped it.path && isCode it.path)).map TreeItem.path

/-- The `license` object of the GitHub metadata response. -/
structure License where
  name : Option Str
deriving DecidableEq

/-- The fields of the GitHub repository-metadata response read by
src/app.py.  `none` models an absent key (`dict.get` then yields the coded
default). -/
structure RepoInfo where
  name : Option Str
  description : Option Str
  language : Option Str
  stargazers_count : Option Nat
  forks_count : Option Nat
  license : Option License
deriving DecidableEq

/-- Python `str(n)` for a natural number. -/
def natStr (n : Nat) : Str := (toString n).toList

/-- The license expression of src/app.py line 133. -/
def licenseText (info : RepoInfo) : Str :=
  match info.license with
  | some lic => lic.name.getD "Not specified".toList
  | none => "Not specified".toList

/-- The literal chunk of the prompt f-string before the name field. -/
def hdrName : Str :=
  "\nBased on the following GitHub repository information, generate a comprehensive and professional README.md file:\n\n**Repository Information:**\n- Name: ".toList

/-- The literal chunk of the prompt f-string before the description field. -/
def hdrDesc : Str := "\n- Description: ".toList

/-- The literal chunk of the prompt f-string before the language field. -/
def hdrLang : Str := "\n- Language: ".toList

/-- The literal chunk of the prompt f-string before the star count. -/
def hdrStars : Str := "\n- Stars: ".toList

/-- The literal chunk of the prompt f-string before the fork count. -/
def hdrForks : Str := "\n- Forks: ".toList

/-- The literal chunk of the prompt f-string before the license field. -/
def hdrLicense : Str := "\n- License: ".toList

/-- The literal chunk of the prompt f-string after the license field. -/
def hdrEnd : Str := "\n\n**File Contents Analysis:**\n".toList

/-- The metadata preamble of the prompt, src/app.py lines 124-136. -/
def promptHeader (info : RepoInfo) : Str :=
  hdrName
  ++ info.name.getD "N/A".toList
  ++ hdrDesc
  ++ info.description.getD "No description provided".toList
  ++ hdrLang
  ++ info.language.getD "Not specified".toList
  ++ hdrStars
  ++ natStr (info.stargazers_count.getD 0)
  ++ hdrForks
  ++ natStr (info.forks_count.getD 0)
  ++ hdrLicense
  ++ licenseText info
  ++ hdrEnd

/-- One per-file block of the prompt, src/app.py line 139. -/
def fileBlock (p : Str) (content : Str) : Str :=
  "\n**".toList ++ p ++ ":**\n```\n".toList ++ content.take 1000 ++ "...\n```\n".toList

/-- The fixed instruction suffix of the prompt, src/app.py lines 141-155. -/
def promptSuffix : Str :=
  "\n\nIMPORTANT: Return ONLY the raw Markdown content for the README.md file. Do not include any explanatory text, code block markers (```), or additional commentary. Start directly with the README content.\n\nGenerate a comprehensive README.md that includes:\n1. Project title and description\n2. Features (inferred from the code)\n3. Installation instructions\n4. Usage examples\n5. Contributing guidelines\n6. License information\n7. Any other relevant sections\n\nOutput should be pure Markdown that can be directly saved as README.md file.\n".toList

/-- The seven required README sections enumerated in the instruction suffix,
src/app.py lines 145-152. -/
def sectionTitles : List Str :=
  ["1. Project title and description",
   "2. Features (inferred from the code)",
   "3. Installation instructions",
   "4. Usage examples",
   "5. Contributing guidelines",
   "6. License information",
   "7. Any other relevant sections"].map String.toList

/-- The prompt of src/app.py lines 124-155, for file contents that are all
present. -/
def buildPrompt (info : RepoInfo) (files : List (Str × Str)) : Str :=
  promptHeader info
  ++ files.foldl (fun acc fc => acc ++ fileBlock fc.1 fc.2) []
  ++ promptSuffix

/-- Checks that every stored content is present, in iteration order; `none`
signals the first `None` value hit by `content[:1000]`. -/
def seqFiles : List (Str × Option Str) → Option (List (Str × Str))
  | [] => some []
  | (p, some c) :: rest => (seqFiles rest).map (fun r => (p, c) :: r)
  | (_, none) :: _ => none

/-- Prompt construction over possibly-missing contents.  Slicing a `None`
content on src/app.py line 139 raises a `TypeError`; the runtime's message is
modelled here without its quote characters. -/
def buildPromptE (info : RepoInfo) (files : List (Str × Option Str)) :
    Except Str Str :=
  match seqFiles files with
  | some fs => .ok (buildPrompt info fs)
  | none => .error "NoneType object is not subscriptable".toList

/-- The line predicate of src/app.py line 179: `line.startswith('#') or
line.strip().upper().startswith('README') or any(keyword in line.lower() for
keyword in ['project', 'repository', 'application'])`. -/
def lineTrigger (line : Str) : Bool :=
  "#".toList.isPrefixOf line
  || "README".toList.isPrefixOf (upperStr (pyStrip line))
  || (["project", "repository", "application"].map String.toList).any
      (fun kw => strIn kw (lowerStr line))

/-- The opening-fence removal of src/app.py lines 165-168: drop exactly 11
characters after a `markdown`-tagged fence, else exactly 3 after a bare
fence. -/
def stripOpenFence (t : Str) : Str :=
  if "```markdown".toList.isPrefixOf t then t.drop 11
  else if "```".toList.isPrefixOf t then t.drop 3
  else t

/-- The closing-fence removal of src/app.py lines 170-171: drop exactly the
3 trailing characters when the text ends with a fence. -/
def stripCloseFence (t : Str) : Str :=
  if "```".toList.isSuffixOf t then t.take (t.length - 3) else t

/-- The response cleanup of src/app.py lines 162-185: trim, fixed-width fence
removal, then discard the lines before the first trigger line (defaulting to
the first line), re-join and trim. -/
def cleanReadme (raw : Str) : Str :=
  let t := pyStrip raw
  let body := stripCloseFence (stripOpenFence t)
  let lines := splitOnC '\n' body
  let start_idx := (lines.findIdx? lineTrigger).getD 0
  pyStrip (joinC '\n' (lines.drop start_idx))

/-- `ReadmeGenerator.generate_readme` (src/app.py lines 120-187).  `gen`
models the Gemini call (`Except.error` is a raised exception or unusable
result).  Prompt construction happens before the `try`, so a `TypeError`
from a `None` file content propagates (`Except.error`); a generation failure
is caught and turned into the `"Error generating README: ..."` string. -/
def generate_readme (gen : Str → Except Str Str) (repo_info : RepoInfo)
    (file_contents : List (Str × Option Str)) : Except Str Str :=
  match buildPromptE repo_info file_contents with
  | .error e => .error e
  | .ok prompt =>
    .ok (match gen prompt with
      | .ok text => cleanReadme text
      | .error e => "Error generating README: ".toList ++ e)

/-- The `repo_info` object jsonified on success, src/app.py lines 212-218. -/
structure RepoInfoOut where
  name : Option Str
  description : Option Str
  language : Option Str
  stars : Option Nat
  forks : Option Nat
deriving DecidableEq

/-- A JSON response body of the endpoint: the error envelope or the success
envelope. -/
inductive ApiResp where
  | failure (error : Str)
  | success (readme : Str) (info : RepoInfoOut)
deriving DecidableEq

/-- The remote responses observed by one request: GitHub metadata status and
body, the two tree attempts (`main` then `master`), the per-file content
fetches, and the generative call. -/
structure Oracles where
  metaStatus : Nat
  metaBody : RepoInfo
  treeMainStatus : Nat
  treeMainBody : List TreeItem
  treeMasterStatus : Nat
  treeMasterBody : List TreeItem
  fileFetch : Str → Option Str
  gen : Str → Except Str Str

/-- `GitHubRepoAnalyzer.get_repo_info` (src/app.py lines 41-48). -/
def get_repo_info (o : Oracles) : Except Str RepoInfo :=
  if o.metaStatus = 200 then .ok o.metaBody
  else .error ("Failed to fetch repo info: ".toList ++ natStr o.metaStatus)

/-- `GitHubRepoAnalyzer.get_file_tree` (src/app.py lines 50-63): try the
`main` branch, fall back once to `master`, raise with the second status when
both fail. -/
def get_file_tree (o : Oracles) : Except Str (List TreeItem) :=
  if o.treeMainStatus = 200 then .ok o.treeMainBody
  else if o.treeMasterStatus = 200 then .ok o.treeMasterBody
  else .error ("Failed to fetch file tree: ".toList ++ natStr o.treeMasterStatus)

/-- `api_generate_readme` (src/app.py lines 196-222).  `repo_url` is the
request body's field (`none` when missing); `urlPath` is the path component
that `urllib.parse.urlparse` yields for that URL.  Any exception reaching the
handler becomes the 500 envelope. -/
def api_generate_readme (o : Oracles) (repo_url : Option Str) (urlPath : Str) :
    Nat × ApiResp :=
  match repo_url with
  | none => (400, .failure "Repository URL is required".toList)
  | some url =>
    if url = [] then (400, .failure "Repository URL is required".toList)
    else if ¬ (strIn "github.com".toList url) then
      (400, .failure "Please provide a valid GitHub repository URL".toList)
    else
      match parse_github_url urlPath with
      | .error e => (500, .failure e)
      | .ok _ =>
        match get_repo_info o with
        | .error e => (500, .failure e)
        | .ok repo_info =>
          let file_contents := get_important_files o.fileFetch (get_file_tree o)
          match generate_readme o.gen repo_info file_contents with
          | .error e => (500, .failure e)
          | .ok readme =>
            (200, .success readme
              ⟨repo_info.name, repo_info.description, repo_info.language,
               repo_info.stargazers_count, repo_info.forks_count⟩)

/-! ### Basic lemmas about the string primitives -/

lemma splitOnC_ne_nil (sep : Char) (s : Str) : splitOnC sep s ≠ [] := by
  cases s with
  | nil => simp [splitOnC]
  | cons a as =>
    simp only [splitOnC]
    split
    · simp
    · split <;> simp

lemma joinC_splitOnC (sep : Char) (s : Str) : joinC sep (splitOnC sep s) = s := by
  induction s with
  | nil => rfl
  | cons a as ih =>
    cases h : splitOnC sep as with
    | nil => exact absurd h (splitOnC_ne_nil sep as)
    | cons hd tl =>
      rw [h] at ih
      simp only [splitOnC, h]
      by_cases hc : a = sep
      · subst hc
        simp only [if_pos rfl, joinC, List.nil_append]
        rw [ih]
      · simp only [if_neg hc]
        cases tl with
        | nil =>
          simp only [joinC] at ih ⊢
          rw [ih]
        | cons y ys =>
          simp only [joinC, List.cons_append] at ih ⊢
          rw [ih]

lemma joinC_drop_suffix (sep : Char) (s : Str) (k : Nat) :
    joinC sep ((splitOnC sep s).drop k) <:+ s := by
  induction s generalizing k with
  | nil =>
    cases k with
    | zero => simp [splitOnC, joinC]
    | succ j => simp [splitOnC, joinC]
  | cons a as ih =>
    cases k with
    | zero =>
      rw [List.drop_zero, joinC_splitOnC]
    | succ j =>
      cases h : splitOnC sep as with
      | nil => exact absurd h (splitOnC_ne_nil sep as)
      | cons hd tl =>
        by_cases hc : a = sep
        · have e : splitOnC sep (a :: as) = [] :: hd :: tl := by
            simp only [splitOnC, h, if_pos hc]
          rw [e, List.drop_succ_cons, ← h]
          exact (ih j).trans (List.suffix_cons a as)
        · have e : splitOnC sep (a :: as) = (a :: hd) :: tl := by
            simp only [splitOnC, h, if_neg hc]
          have e2 : ((a :: hd) :: tl).drop (j + 1) = (splitOnC sep as).drop (j + 1) := by
            rw [h]
            simp [List.drop_succ_cons]
          rw [e, e2]
          exact (ih (j + 1)).trans (List.suffix_cons a as)

lemma stripBoth_isInfix (p : Char → Bool) (s : Str) : stripBoth p s <:+: s := by
  have h1 : s.dropWhile p <:+ s := List.dropWhile_suffix p
  have h2 : stripBoth p s <+: s.dropWhile p := by
    have := List.dropWhile_suffix (l := (s.dropWhile p).reverse) p
    rw [← List.reverse_prefix] at this
    simpa [stripBoth] using this
  exact h2.isInfix.trans h1.isInfix

lemma dropWhile_eq_self_of_head {p : Char → Bool} {l : Str}
    (h : ∀ hne : l ≠ [], p (l.head hne) = false) : l.dropWhile p = l := by
  cases l with
  | nil => rfl
  | cons a t =>
    have := h (by simp)
    simp only [List.head_cons] at this
    simp [List.dropWhile_cons, this]

lemma dropWhile_head_false {p : Char → Bool} {l : Str} {a : Char} {t : Str}
    (h : l.dropWhile p = a :: t) : p a = false := by
  induction l with
  | nil => simp at h
  | cons b bs ih =>
    rw [List.dropWhile_cons] at h
    split at h
    · exact ih h
    · next hb =>
      cases h
      simpa using hb

lemma stripBoth_dropWhile (p : Char → Bool) (s : Str) :
    (stripBoth p s).dropWhile p = stripBoth p s := by
  unfold stripBoth
  cases hx : s.dropWhile p with
  | nil => simp
  | cons a t =>
    have ha : p a = false := dropWhile_head_false hx
    rw [List.reverse_cons, List.dropWhile_append]
    split
    · simp [List.dropWhile_cons, ha]
    · simp [List.reverse_append, List.dropWhile_cons, ha]

lemma stripBoth_idem (p : Char → Bool) (s : Str) :
    stripBoth p (stripBoth p s) = stripBoth p s := by
  have h1 : (stripBoth p s).reverse = (s.dropWhile p).reverse.dropWhile p := by
    rw [stripBoth, List.reverse_reverse]
  calc stripBoth p (stripBoth p s)
      = (((stripBoth p s).dropWhile p).reverse.dropWhile p).reverse := rfl
    _ = ((stripBoth p s).reverse.dropWhile p).reverse := by rw [stripBoth_dropWhile]
    _ = (((s.dropWhile p).reverse.dropWhile p).dropWhile p).reverse := by rw [h1]
    _ = ((s.dropWhile p).reverse.dropWhile p).reverse := by rw [List.dropWhile_idempotent]
    _ = stripBoth p s := rfl

lemma strIn_iff (n h : Str) : strIn n h = true ↔ n <:+: h := by
  simp [strIn]

lemma pyStrip_isInfix (s : Str) : pyStrip s <:+: s := stripBoth_isInfix pyWs s

lemma pyStrip_idem (s : Str) : pyStrip (pyStrip s) = pyStrip s := stripBoth_idem pyWs s

/-! ### Lemmas about the response normalizer -/

lemma stripOpenFence_of_md {t : Str} (h : "```markdown".toList <+: t) :
    stripOpenFence t = t.drop 11 := by
  rw [stripOpenFence, if_pos (List.isPrefixOf_iff_prefix.mpr h)]

lemma stripOpenFence_of_bare {t : Str} (hmd : ¬ ("```markdown".toList <+: t))
    (hb : "```".toList <+: t) : stripOpenFence t = t.drop 3 := by
  rw [stripOpenFence, if_neg (fun hc => hmd (List.isPrefixOf_iff_prefix.mp hc)),
    if_pos (List.isPrefixOf_iff_prefix.mpr hb)]

lemma stripOpenFence_of_none {t : Str} (hb : ¬ ("```".toList <+: t)) :
    stripOpenFence t = t := by
  have hmd : ¬ ("```markdown".toList <+: t) :=
    fun hc => hb ((by decide : "```".toList <+: "```markdown".toList).trans hc)
  rw [stripOpenFence, if_neg (fun hc => hmd (List.isPrefixOf_iff_prefix.mp hc)),
    if_neg (fun hc => hb (List.isPrefixOf_iff_prefix.mp hc))]

lemma stripCloseFence_of_end {u : Str} (h : "```".toList <:+ u) :
    stripCloseFence u = u.take (u.length - 3) := by
  rw [stripCloseFence, if_pos (List.isSuffixOf_iff_suffix.mpr h)]

lemma stripCloseFence_of_none {u : Str} (h : ¬ ("```".toList <:+ u)) :
    stripCloseFence u = u := by
  rw [stripCloseFence, if_neg (fun hc => h (List.isSuffixOf_iff_suffix.mp hc))]

lemma cleanReadme_infix_body (raw : Str) :
    cleanReadme raw <:+: stripCloseFence (stripOpenFence (pyStrip raw)) := by
  show pyStrip _ <:+: _
  exact (pyStrip_isInfix _).trans (joinC_drop_suffix '\n' _ _).isInfix

lemma cleanReadme_of_clean {s : Str} (hf : ¬ ("```".toList <:+: pyStrip s))
    (hh : "#".toList <+: (splitOnC '\n' (pyStrip s)).headI) :
    cleanReadme s = pyStrip s := by
  have hbare : ¬ ("```".toList <+: pyStrip s) := fun h => hf h.isInfix
  have hsuf : ¬ ("```".toList <:+ pyStrip s) := fun h => hf h.isInfix
  show pyStrip (joinC '\n' (List.drop
    ((List.findIdx? lineTrigger (splitOnC '\n'
      (stripCloseFence (stripOpenFence (pyStrip s))))).getD 0)
    (splitOnC '\n' (stripCloseFence (stripOpenFence (pyStrip s)))))) = pyStrip s
  rw [stripOpenFence_of_none hbare, stripCloseFence_of_none hsuf]
  cases e : splitOnC '\n' (pyStrip s) with
  | nil => exact absurd e (splitOnC_ne_nil '\n' (pyStrip s))
  | cons hd tl =>
    rw [e] at hh
    simp only [List.headI] at hh
    have htrig : lineTrigger hd = true := by
      simp only [lineTrigger, Bool.or_eq_true, List.isPrefixOf_iff_prefix]
      exact Or.inl (Or.inl hh)
    rw [List.findIdx?_cons, if_pos htrig]
    simp only [Option.getD_some, List.drop_zero]
    rw [← e, joinC_splitOnC, pyStrip_idem]

/-! ### Claims C6, C7, C8: the response normalizer -/

/-- C6, counterexample: on the raw text `"# hi\n```\n```"` the normalizer
removes only one trailing fence, and the result still ends with a 3-backtick
fence, refuting the claim that the output never begins or ends with a fence
delimiter. -/
theorem c6_counterexample :
    cleanReadme "# hi\n```\n```".toList = "# hi\n```".toList ∧
    "```".toList <:+ cleanReadme "# hi\n```\n```".toList := by
  constructor
  · decide
  · decide

/-- C6, amended: the output of the Response Normalizer neither begins nor
ends with a 3-backtick fence, provided the text remaining after trimming and
the fixed-width fence removal contains no 3-backtick sequence at all (the
original claim fails when further fences remain, see the counterexample). -/
theorem c6_no_fence_at_ends (raw : Str)
    (h : ¬ ("```".toList <:+: stripCloseFence (stripOpenFence (pyStrip raw)))) :
    ¬ ("```".toList <+: cleanReadme raw) ∧ ¬ ("```".toList <:+ cleanReadme raw) := by
  refine ⟨fun hp => h (hp.isInfix.trans (cleanReadme_infix_body raw)),
    fun hs => h (hs.isInfix.trans (cleanReadme_infix_body raw))⟩

/-- Witness for C6 amended, at the raw text `"```markdown\n# T\n```"`. -/
theorem c6_no_fence_at_ends_witness :
    ¬ ("```".toList <+: cleanReadme "```markdown\n# T\n```".toList) ∧
    ¬ ("```".toList <:+ cleanReadme "```markdown\n# T\n```".toList) :=
  c6_no_fence_at_ends "```markdown\n# T\n```".toList (by decide)

/-- C7: fence markers are removed by fixed-width prefix/suffix removal
(11 characters for a markdown-tagged opening fence, 3 for a bare opening
fence, 3 for a closing fence), and on `"```markdown\n# Title\nBody\n```"`
the normalizer returns exactly `"# Title\nBody"`. -/
theorem c7_fixed_width_fence_removal :
    cleanReadme "```markdown\n# Title\nBody\n```".toList = "# Title\nBody".toList
    ∧ (∀ t : Str, "```markdown".toList <+: t → stripOpenFence t = t.drop 11)
    ∧ (∀ t : Str, ¬ ("```markdown".toList <+: t) → "```".toList <+: t →
        stripOpenFence t = t.drop 3)
    ∧ (∀ t : Str, ¬ ("```".toList <+: t) → stripOpenFence t = t)
    ∧ (∀ u : Str, "```".toList <:+ u → stripCloseFence u = u.take (u.length - 3))
    ∧ (∀ u : Str, ¬ ("```".toList <:+ u) → stripCloseFence u = u) := by
  refine ⟨by decide, ?_, ?_, ?_, ?_, ?_⟩
  · exact fun t ht => stripOpenFence_of_md ht
  · exact fun t hmd hb => stripOpenFence_of_bare hmd hb
  · exact fun t hb => stripOpenFence_of_none hb
  · exact fun u hu => stripCloseFence_of_end hu
  · exact fun u hu => stripCloseFence_of_none hu

/-- Witness for C7, exercising each fixed-width case at concrete inputs. -/
theorem c7_fixed_width_fence_removal_witness :
    stripOpenFence "```markdownA".toList = "A".toList ∧
    stripOpenFence "```B".toList = "B".toList ∧
    stripOpenFence "C".toList = "C".toList ∧
    stripCloseFence "D```".toList = "D".toList ∧
    stripCloseFence "E".toList = "E".toList := by
  obtain ⟨-, h1, h2, h3, h4, h5⟩ := c7_fixed_width_fence_removal
  refine ⟨?_, ?_, ?_, ?_, ?_⟩
  · rw [h1 _ (by decide)]; decide
  · rw [h2 _ (by decide) (by decide)]; decide
  · rw [h3 _ (by decide)]
  · rw [h4 _ (by decide)]; decide
  · rw [h5 _ (by decide)]

/-- C8: on a raw text with no 3-backtick fence anywhere and whose first line
after trimming starts with the heading marker, the normalizer returns the
trimmed text unchanged, and is therefore idempotent on it. -/
theorem c8_idempotent_on_clean (s : Str)
    (hf : ¬ ("```".toList <:+: s))
    (hh : "#".toList <+: (splitOnC '\n' (pyStrip s)).headI) :
    cleanReadme s = pyStrip s ∧ cleanReadme (cleanReadme s) = cleanReadme s := by
  have hf1 : ¬ ("```".toList <:+: pyStrip s) :=
    fun hc => hf (hc.trans (pyStrip_isInfix s))
  have h1 : cleanReadme s = pyStrip s := cleanReadme_of_clean hf1 hh
  refine ⟨h1, ?_⟩
  rw [h1]
  have hf2 : ¬ ("```".toList <:+: pyStrip (pyStrip s)) := by
    rwa [pyStrip_idem]
  have hh2 : "#".toList <+: (splitOnC '\n' (pyStrip (pyStrip s))).headI := by
    rwa [pyStrip_idem]
  rw [cleanReadme_of_clean hf2 hh2, pyStrip_idem]

/-- Witness for C8, at the raw text `" # Hello\nWorld "`. -/
theorem c8_idempotent_on_clean_witness :
    cleanReadme " # Hello\nWorld ".toList = pyStrip " # Hello\nWorld ".toList ∧
    cleanReadme (cleanReadme " # Hello\nWorld ".toList) =
      cleanReadme " # Hello\nWorld ".toList :=
  c8_idempotent_on_clean " # Hello\nWorld ".toList (by decide) (by decide)

/-! ### Lemmas about URL-path stripping and splitting (claim C5) -/

lemma stripBoth_head_false {p : Char → Bool} {s : Str} {a : Char} {t : Str}
    (h : stripBoth p s = a :: t) : p a = false := by
  have hd := stripBoth_dropWhile p s
  rw [h, List.dropWhile_cons] at hd
  by_cases hp : p a = true
  · rw [if_pos hp] at hd
    have hle : (t.dropWhile p).length ≤ t.length := (List.dropWhile_suffix p).length_le
    rw [hd] at hle
    simp at hle
  · simpa using hp

lemma stripBoth_getLast_false {p : Char → Bool} {s : Str} {a : Char} {t : Str}
    (h : stripBoth p s = a :: t) :
    ∃ c, (a :: t).getLast? = some c ∧ p c = false := by
  have hr : (stripBoth p s).reverse = (s.dropWhile p).reverse.dropWhile p := by
    rw [stripBoth, List.reverse_reverse]
  rw [h] at hr
  cases e : (a :: t).reverse with
  | nil => simp at e
  | cons b bs =>
    rw [e] at hr
    refine ⟨b, ?_, dropWhile_head_false hr.symm⟩
    have : (a :: t).reverse.head? = some b := by rw [e]; rfl
    rwa [List.head?_reverse] at this

lemma splitOnC_cons_sep {sep : Char} (cs : Str) :
    splitOnC sep (sep :: cs) = [] :: splitOnC sep cs := by
  simp [splitOnC]

lemma splitOnC_cons_of_ne {sep c : Char} (cs : Str) (hc : ¬ c = sep) :
    splitOnC sep (c :: cs) =
      (c :: (splitOnC sep cs).headI) :: (splitOnC sep cs).tail := by
  cases e : splitOnC sep cs with
  | nil => exact absurd e (splitOnC_ne_nil sep cs)
  | cons a b => simp only [splitOnC, e, if_neg hc, List.headI, List.tail_cons]

lemma splitOnC_noSep {sep : Char} :
    ∀ {x : Str}, (∀ c ∈ x, ¬ c = sep) → splitOnC sep x = [x] := by
  intro x
  induction x with
  | nil => intro _; rfl
  | cons a as ih =>
    intro h
    have ha : ¬ a = sep := h a (by simp)
    rw [splitOnC_cons_of_ne as ha, ih (fun c hc => h c (by simp [hc]))]
    simp

lemma splitOnC_noSep_append {sep : Char} (z : Str) :
    ∀ {x : Str}, (∀ c ∈ x, ¬ c = sep) →
      splitOnC sep (x ++ sep :: z) = x :: splitOnC sep z := by
  intro x
  induction x with
  | nil =>
    intro _
    simpa using splitOnC_cons_sep z
  | cons a as ih =>
    intro h
    have ha : ¬ a = sep := h a (by simp)
    rw [List.cons_append, splitOnC_cons_of_ne _ ha,
      ih (fun c hc => h c (by simp [hc]))]
    simp

lemma splitOnC_replicate_append {sep : Char} (z : Str) (i : Nat) :
    splitOnC sep (List.replicate i sep ++ z) =
      List.replicate i ([] : Str) ++ splitOnC sep z := by
  induction i with
  | zero => simp
  | succ n ih =>
    rw [List.replicate_succ, List.cons_append, splitOnC_cons_sep, ih,
      List.replicate_succ, List.cons_append]

lemma splitOnC_append_sep {sep : Char} (xs : Str) :
    splitOnC sep (xs ++ [sep]) = splitOnC sep xs ++ [[]] := by
  induction xs with
  | nil => simp [splitOnC_cons_sep, splitOnC]
  | cons a as ih =>
    by_cases ha : a = sep
    · subst ha
      rw [List.cons_append, splitOnC_cons_sep, splitOnC_cons_sep, ih, List.cons_append]
    · rw [List.cons_append, splitOnC_cons_of_ne _ ha, splitOnC_cons_of_ne _ ha, ih]
      cases e : splitOnC sep as with
      | nil => exact absurd e (splitOnC_ne_nil sep as)
      | cons h t => simp

lemma splitOnC_append_replicate {sep : Char} (xs : Str) (k : Nat) :
    splitOnC sep (xs ++ List.replicate k sep) =
      splitOnC sep xs ++ List.replicate k ([] : Str) := by
  induction k with
  | zero => simp
  | succ n ih =>
    rw [List.replicate_succ', ← List.append_assoc, splitOnC_append_sep, ih,
      List.replicate_succ', List.append_assoc]

lemma stripChar_decomp (c : Char) (s : Str) :
    ∃ i j, s = List.replicate i c ++ stripChar c s ++ List.replicate j c := by
  have h1 : s = s.takeWhile (· = c) ++ s.dropWhile (· = c) :=
    (List.takeWhile_append_dropWhile _ s).symm
  have h2 : s.takeWhile (· = c) = List.replicate (s.takeWhile (· = c)).length c :=
    List.eq_replicate_of_mem (fun b hb => by simpa using List.mem_takeWhile_imp hb)
  have h3 : s.dropWhile (· = c) = stripChar c s ++
      ((s.dropWhile (· = c)).reverse.takeWhile (· = c)).reverse := by
    conv_lhs =>
      rw [← List.reverse_reverse (s.dropWhile (· = c)),
        ← List.takeWhile_append_dropWhile (· = c) (s.dropWhile (· = c)).reverse,
        List.reverse_append]
    rfl
  have h5 : (s.dropWhile (· = c)).reverse.takeWhile (· = c) =
      List.replicate ((s.dropWhile (· = c)).reverse.takeWhile (· = c)).length c :=
    List.eq_replicate_of_mem (fun b hb => by simpa using List.mem_takeWhile_imp hb)
  have h4 : ((s.dropWhile (· = c)).reverse.takeWhile (· = c)).reverse =
      List.replicate ((s.dropWhile (· = c)).reverse.takeWhile (· = c)).length c := by
    conv_lhs => rw [h5]
    rw [List.reverse_replicate]
  refine ⟨(s.takeWhile (· = c)).length,
    ((s.dropWhile (· = c)).reverse.takeWhile (· = c)).length, ?_⟩
  conv_lhs => rw [h1, h2, h3, h4]
  rw [List.append_assoc]

lemma filter_nonEmpty_replicate_nil (n : Nat) :
    (List.replicate n ([] : Str)).filter (fun x => !x.isEmpty) = [] := by
  induction n with
  | zero => rfl
  | succ k ih => rw [List.replicate_succ, List.filter_cons]; simp [ih]

lemma nonEmptySegs_eq_stripChar (s : Str) :
    nonEmptySegs s = (splitOnC '/' (stripChar '/' s)).filter (fun x => !x.isEmpty) := by
  obtain ⟨i, j, hdecomp⟩ := stripChar_decomp '/' s
  conv_lhs => rw [nonEmptySegs, hdecomp]
  rw [List.append_assoc, splitOnC_replicate_append, splitOnC_append_replicate,
    List.filter_append, List.filter_append, filter_nonEmpty_replicate_nil,
    filter_nonEmpty_replicate_nil]
  simp

lemma splitOnC_getLast_ne_nil {sep : Char} :
    ∀ {s : Str} {c : Char}, s.getLast? = some c → ¬ c = sep →
      ∃ u, (splitOnC sep s).getLast? = some u ∧ u ≠ [] := by
  intro s
  induction s with
  | nil => intro c h _; simp at h
  | cons a as ih =>
    intro c h hc
    cases as with
    | nil =>
      have ha : a = c := by simpa using h
      subst ha
      refine ⟨[a], ?_, by simp⟩
      rw [splitOnC_cons_of_ne _ hc]
      simp [splitOnC]
    | cons b bs =>
      rw [List.getLast?_cons_cons] at h
      obtain ⟨u, hu, hune⟩ := ih h hc
      by_cases ha : a = sep
      · subst ha
        rw [splitOnC_cons_sep]
        cases e : splitOnC a (b :: bs) with
        | nil => exact absurd e (splitOnC_ne_nil _ _)
        | cons x xs =>
          rw [e] at hu
          exact ⟨u, by rw [List.getLast?_cons_cons]; exact hu, hune⟩
      · rw [splitOnC_cons_of_ne _ ha]
        cases e : splitOnC sep (b :: bs) with
        | nil => exact absurd e (splitOnC_ne_nil _ _)
        | cons x xs =>
          rw [e] at hu
          cases xs with
          | nil =>
            refine ⟨a :: x, ?_, by simp⟩
            simp
          | cons y ys =>
            refine ⟨u, ?_, hune⟩
            simp only [List.headI, List.tail_cons]
            rw [List.getLast?_cons_cons]
            rw [List.getLast?_cons_cons] at hu
            exact hu

lemma countP_nonEmpty_two {parts : List Str} (hlen : 2 ≤ parts.length)
    (hhead : ∃ x t, parts = x :: t ∧ x ≠ [])
    (hlast : ∃ u, parts.getLast? = some u ∧ u ≠ []) :
    2 ≤ parts.countP (fun x => !x.isEmpty) := by
  obtain ⟨x, t, rfl, hx⟩ := hhead
  obtain ⟨u, hu, hune⟩ := hlast
  cases t with
  | nil => simp at hlen
  | cons b bs =>
    rw [List.getLast?_cons_cons] at hu
    have humem : u ∈ b :: bs := List.mem_of_mem_getLast? hu
    have h1 : 0 < (b :: bs).countP (fun x => !x.isEmpty) :=
      List.countP_pos_iff.mpr ⟨u, humem, by simpa using hune⟩
    have h2 : (x :: b :: bs).countP (fun x => !x.isEmpty) =
        (b :: bs).countP (fun x => !x.isEmpty) + 1 := by
      rw [List.countP_cons]
      simp [hx]
    omega

lemma parse_of_split {path a b : Str} {q : List Str}
    (h : splitOnC '/' (stripChar '/' path) = a :: b :: q) :
    parse_github_url path = .ok (a, b) := by
  simp only [parse_github_url, h]
  simp

lemma parse_error_of_short {path : Str}
    (h : ¬ 2 ≤ (splitOnC '/' (stripChar '/' path)).length) :
    parse_github_url path = .error "Invalid GitHub URL".toList := by
  simp only [parse_github_url, if_neg h]

lemma dropWhile_cons_false {p : Char → Bool} {a : Char} (l : Str) (h : p a = false) :
    List.dropWhile p (a :: l) = a :: l := by
  rw [List.dropWhile_cons, h]
  simp

lemma parse_fails_of_few_nonempty {path : Str}
    (hlt : (nonEmptySegs path).length < 2) :
    parse_github_url path = .error "Invalid GitHub URL".toList := by
  have hcount : (nonEmptySegs path).length =
      (splitOnC '/' (stripChar '/' path)).countP (fun x => !x.isEmpty) := by
    rw [nonEmptySegs_eq_stripChar, List.countP_eq_length_filter]
  by_cases h2 : 2 ≤ (splitOnC '/' (stripChar '/' path)).length
  · exfalso
    cases e : stripChar '/' path with
    | nil => rw [e] at h2; simp [splitOnC] at h2
    | cons c cs =>
      have e2 : stripBoth (· = '/') path = c :: cs := e
      have hc : ¬ c = '/' := by simpa using stripBoth_head_false e2
      have hhead : ∃ x t, splitOnC '/' (c :: cs) = x :: t ∧ x ≠ [] := by
        rw [splitOnC_cons_of_ne _ hc]
        exact ⟨_, _, rfl, by simp⟩
      have hlast : ∃ u, (splitOnC '/' (c :: cs)).getLast? = some u ∧ u ≠ [] := by
        obtain ⟨d, hd, hdp⟩ := stripBoth_getLast_false e2
        exact splitOnC_getLast_ne_nil hd (by simpa using hdp)
      rw [e] at h2
      have hge := countP_nonEmpty_two h2 hhead hlast
      rw [e] at hcount
      omega
  · simp only [parse_github_url, if_neg h2]

lemma stripChar_of_shape {owner repo rest : Str}
    (ho : owner ≠ []) (hr : repo ≠ []) (hno : '/' ∉ owner) (hnr : '/' ∉ repo)
    (hrest : rest = [] ∨ ∃ r, rest = '/' :: r) :
    ∃ rest2, stripChar '/' ('/' :: ((owner ++ '/' :: repo) ++ rest)) =
      (owner ++ '/' :: repo) ++ rest2 ∧ (rest2 = [] ∨ ∃ r2, rest2 = '/' :: r2) := by
  have hA : List.dropWhile (· = '/') ('/' :: ((owner ++ '/' :: repo) ++ rest)) =
      (owner ++ '/' :: repo) ++ rest := by
    rw [List.dropWhile_cons, if_pos (by decide)]
    cases owner with
    | nil => exact absurd rfl ho
    | cons o os =>
      have hop : ((fun x => decide (x = '/')) o) = false := by
        have hne : ¬ o = '/' := fun hcon => hno (by rw [hcon]; exact List.mem_cons_self _ _)
        simpa using hne
      rw [List.cons_append, List.cons_append]
      exact dropWhile_cons_false _ hop
  have hmain : stripChar '/' ('/' :: ((owner ++ '/' :: repo) ++ rest)) =
      (((owner ++ '/' :: repo) ++ rest).reverse.dropWhile (· = '/')).reverse := by
    rw [stripChar, stripBoth, hA]
  have hrev : ((owner ++ '/' :: repo) ++ rest).reverse =
      rest.reverse ++ (owner ++ '/' :: repo).reverse := List.reverse_append _ _
  have hxrev : ∃ d ds, (owner ++ '/' :: repo).reverse = d :: ds ∧ ¬ d = '/' := by
    cases er : repo.reverse with
    | nil =>
      rw [List.reverse_eq_nil_iff] at er
      exact absurd er hr
    | cons d ds =>
      have hd : d ∈ repo := by
        rw [← List.mem_reverse, er]
        exact List.mem_cons_self _ _
      refine ⟨d, ds ++ '/' :: owner.reverse, ?_, fun hcon => hnr (by rw [← hcon]; exact hd)⟩
      rw [List.reverse_append, List.reverse_cons, er]
      simp
  obtain ⟨d, ds, hx, hd⟩ := hxrev
  have hdp : ((fun x => decide (x = '/')) d) = false := by simpa using hd
  by_cases hw : (rest.reverse.dropWhile (· = '/')).isEmpty = true
  · refine ⟨[], ?_, Or.inl rfl⟩
    rw [hmain, hrev, List.dropWhile_append, if_pos hw, hx, dropWhile_cons_false _ hdp,
      ← hx, List.reverse_reverse, List.append_nil]
  · refine ⟨(rest.reverse.dropWhile (· = '/')).reverse, ?_, ?_⟩
    · rw [hmain, hrev, List.dropWhile_append, if_neg hw, List.reverse_append,
        List.reverse_reverse]
    · right
      have hwne : rest.reverse.dropWhile (· = '/') ≠ [] := by
        simpa using hw
      have hpre : (rest.reverse.dropWhile (· = '/')).reverse <+: rest := by
        have hsuf : rest.reverse.dropWhile (· = '/') <:+ rest.reverse :=
          List.dropWhile_suffix _
        have := List.reverse_prefix.mpr hsuf
        rwa [List.reverse_reverse] at this
      cases hrest with
      | inl hre =>
        exfalso
        rw [hre] at hwne
        simp at hwne
      | inr hex =>
        obtain ⟨r, hre⟩ := hex
        cases ew : (rest.reverse.dropWhile (· = '/')).reverse with
        | nil =>
          exfalso
          rw [List.reverse_eq_nil_iff] at ew
          exact hwne ew
        | cons e2 es =>
          rw [ew, hre] at hpre
          obtain ⟨k, hk⟩ := hpre
          rw [List.cons_append] at hk
          injection hk with h1 h2
          exact ⟨es, by rw [h1]⟩

/-! ### Claim C5: the URL parser -/

/-- C5, counterexample: the URL path `"/a//b"` has the two non-empty segments
`a` and `b`, yet `parse_github_url` succeeds with the pair `("a", "")`: the
returned repo component is the empty second raw segment, not the second
non-empty segment, refuting the claim that parse returns the first two
non-empty path segments (both non-empty). -/
theorem c5_counterexample :
    parse_github_url "/a//b".toList = .ok ("a".toList, "".toList) ∧
    nonEmptySegs "/a//b".toList = ["a".toList, "b".toList] ∧
    "".toList ≠ "b".toList := by
  refine ⟨by rfl, by decide, by decide⟩

/-- C5, amended: for every URL path with fewer than two non-empty segments
parse fails with the invalid-URL error; and for every path of the canonical
form `/owner/repo[rest]` (owner and repo non-empty and slash-free, rest empty
or starting with a slash, i.e. no empty segment before the first two), parse
succeeds with exactly that owner/repo pair.  The original universal success
claim is false when an empty segment precedes the second non-empty one
(see the counterexample). -/
theorem c5_parse_two_segments :
    (∀ path : Str, (nonEmptySegs path).length < 2 →
      parse_github_url path = .error "Invalid GitHub URL".toList)
    ∧ (∀ owner repo rest : Str, owner ≠ [] → repo ≠ [] →
        '/' ∉ owner → '/' ∉ repo → (rest = [] ∨ ∃ r, rest = '/' :: r) →
        parse_github_url ('/' :: (owner ++ '/' :: (repo ++ rest))) =
          .ok (owner, repo)) := by
  constructor
  · exact fun path hlt => parse_fails_of_few_nonempty hlt
  · intro owner repo rest ho hr hno hnr hrest
    have hno2 : ∀ c ∈ owner, ¬ c = '/' := fun c hc hcon => hno (hcon ▸ hc)
    have hnr2 : ∀ c ∈ repo, ¬ c = '/' := fun c hc hcon => hnr (hcon ▸ hc)
    obtain ⟨rest2, ht0, hr2⟩ := stripChar_of_shape ho hr hno hnr hrest
    have hpath : '/' :: (owner ++ '/' :: (repo ++ rest)) =
        '/' :: ((owner ++ '/' :: repo) ++ rest) := by
      simp
    rw [hpath]
    cases hr2 with
    | inl h2 =>
      subst h2
      rw [List.append_nil] at ht0
      exact parse_of_split (by
        rw [ht0, splitOnC_noSep_append _ hno2, splitOnC_noSep hnr2])
    | inr hex =>
      obtain ⟨r2, h2⟩ := hex
      subst h2
      refine parse_of_split (q := splitOnC '/' r2) ?_
      rw [ht0, List.append_assoc, List.cons_append,
        splitOnC_noSep_append _ hno2, splitOnC_noSep_append _ hnr2]

/-- Witness for C5 amended: the path `"/x"` fails, and the path
`"/octo/demo"` parses to `(octo, demo)`. -/
theorem c5_parse_two_segments_witness :
    parse_github_url "/x".toList = .error "Invalid GitHub URL".toList ∧
    parse_github_url "/octo/demo".toList = .ok ("octo".toList, "demo".toList) := by
  constructor
  · exact c5_parse_two_segments.1 "/x".toList (by decide)
  · have h := c5_parse_two_segments.2 "octo".toList "demo".toList []
      (by decide) (by decide) (by decide) (by decide) (Or.inl rfl)
    rw [show "/octo/demo".toList =
      '/' :: ("octo".toList ++ '/' :: ("demo".toList ++ [])) from by decide]
    exact h

/-! ### Lemmas about the insertion-ordered mapping (claims C3, C4, C10) -/

lemma mem_keysOf_dictInsert_self (d : List (Str × Option Str)) (k : Str)
    (v : Option Str) : k ∈ keysOf (dictInsert d k v) := by
  rw [dictInsert]
  split
  · next h =>
    rw [keysOf, List.mem_map] at h ⊢
    obtain ⟨e, he, hek⟩ := h
    exact ⟨(k, v), by rw [List.mem_map]; exact ⟨e, he, by simp [hek]⟩, rfl⟩
  · rw [keysOf, List.map_append]
    simp

lemma keysOf_dictInsert_mono {d : List (Str × Option Str)} {a : Str}
    (k : Str) (v : Option Str) (h : a ∈ keysOf d) :
    a ∈ keysOf (dictInsert d k v) := by
  rw [dictInsert]
  split
  · rw [keysOf, List.mem_map] at h ⊢
    obtain ⟨e, he, hek⟩ := h
    by_cases hk : e.1 = k
    · exact ⟨(k, v), by rw [List.mem_map]; exact ⟨e, he, by simp [hk]⟩, by
        simp [← hek, hk]⟩
    · exact ⟨e, by rw [List.mem_map]; exact ⟨e, he, by simp [hk]⟩, hek⟩
  · rw [keysOf, List.map_append]
    simp only [List.mem_append]
    exact Or.inl h

lemma keysOf_dictInsert_not_mem {d : List (Str × Option Str)} {k : Str}
    (v : Option Str) (h : k ∉ keysOf d) :
    keysOf (dictInsert d k v) = keysOf d ++ [k] := by
  rw [dictInsert, if_neg h, keysOf, List.map_append]
  rfl

lemma keysOf_dictInsert_mem {d : List (Str × Option Str)} {k : Str}
    (v : Option Str) (h : k ∈ keysOf d) :
    keysOf (dictInsert d k v) = keysOf d := by
  rw [dictInsert, if_pos h, keysOf, keysOf, List.map_map]
  apply List.map_congr_left
  intro e _
  by_cases hk : e.1 = k <;> simp [hk]

lemma dictInsert_forall_entry {P : Str × Option Str → Prop}
    {d : List (Str × Option Str)} {k : Str} {v : Option Str}
    (hd : ∀ e ∈ d, P e) (hk : P (k, v)) :
    ∀ e ∈ dictInsert d k v, P e := by
  intro e he
  rw [dictInsert] at he
  split at he
  · rw [List.mem_map] at he
    obtain ⟨e0, he0, hfe⟩ := he
    by_cases h0 : e0.1 = k
    · rw [if_pos h0] at hfe
      rw [← hfe]
      exact hk
    · rw [if_neg h0] at hfe
      rw [← hfe]
      exact hd e0 he0
  · rw [List.mem_append] at he
    cases he with
    | inl h => exact hd e h
    | inr h =>
      rw [List.mem_singleton] at h
      rw [h]
      exact hk

lemma dictInsert_mem_of_ne {e : Str × Option Str} {d : List (Str × Option Str)}
    {k : Str} (v : Option Str) (he : e ∈ d) (hne : e.1 ≠ k) :
    e ∈ dictInsert d k v := by
  rw [dictInsert]
  split
  · rw [List.mem_map]
    exact ⟨e, he, by rw [if_neg hne]⟩
  · rw [List.mem_append]
    exact Or.inl he

lemma countP_key_map_update (q : Str → Bool) (k : Str) (v : Option Str) :
    ∀ d : List (Str × Option Str),
      (d.map (fun e => if e.1 = k then (k, v) else e)).countP (fun e => q e.1) =
        d.countP (fun e => q e.1) := by
  intro d
  induction d with
  | nil => rfl
  | cons a as ih =>
    rw [List.map_cons, List.countP_cons, List.countP_cons, ih]
    by_cases ha : a.1 = k
    · simp [ha]
    · simp [ha]

lemma countP_key_dictInsert_le (q : Str → Bool) (d : List (Str × Option Str))
    (k : Str) (v : Option Str) :
    (dictInsert d k v).countP (fun e => q e.1) ≤
      d.countP (fun e => q e.1) + 1 := by
  rw [dictInsert]
  split
  · rw [countP_key_map_update]
    omega
  · rw [List.countP_append]
    simp only [List.countP_cons, List.countP_nil]
    split <;> omega

lemma mem_collectCode {tree : List TreeItem} {p : Str} (h : p ∈ collectCode tree) :
    isSkipped p = false ∧ isCode p = true := by
  rw [collectCode, List.mem_map] at h
  obtain ⟨it, hit, rfl⟩ := h
  rw [List.mem_filter] at hit
  obtain ⟨-, hcond⟩ := hit
  simp only [Bool.and_eq_true] at hcond
  exact ⟨by simpa using hcond.1.2, hcond.2⟩

lemma selStep_eq (fetch : Str → Option Str) (acc : List (Str × Option Str) × List Str)
    (it : TreeItem) : selStep fetch acc it =
    if it.itemType = "blob".toList then
      if isSkipped it.path then acc
      else
        ((if isManifest it.path then dictInsert acc.1 it.path (fetch it.path) else acc.1),
         (if isCode it.path then acc.2 ++ [it.path] else acc.2))
    else acc := by
  by_cases hb : it.itemType = "blob".toList
  · by_cases hs : isSkipped it.path = true
    · simp [selStep, hb, hs]
    · by_cases hcode : isCode it.path = true <;>
        by_cases hman : isManifest it.path = true <;>
          simp [selStep, hb, hs, hcode, hman]
  · simp only [selStep]
    rw [if_neg hb, if_neg hb]

lemma foldl_codeStep_count_le (fetch : Str → Option Str) (q : Str → Bool) :
    ∀ (l : List Str) (d : List (Str × Option Str)),
      (l.foldl (codeStep fetch) d).countP (fun e => q e.1) ≤
        d.countP (fun e => q e.1) + l.length := by
  intro l
  induction l with
  | nil => intro d; simp
  | cons p ps ih =>
    intro d
    rw [List.foldl_cons]
    have hstep : (codeStep fetch d p).countP (fun e => q e.1) ≤
        d.countP (fun e => q e.1) + 1 := by
      cases hf : fetch p with
      | none => simp [codeStep, hf]
      | some c =>
        by_cases hc : c = []
        · simp [codeStep, hf, hc]
        · simp only [codeStep, hf]
          rw [if_neg hc]
          exact countP_key_dictInsert_le q d p _
    have := ih (codeStep fetch d p)
    simp only [List.length_cons]
    omega

lemma foldl_codeStep_mem_preserved (fetch : Str → Option Str) {e : Str × Option Str} :
    ∀ (l : List Str) (d : List (Str × Option Str)), e ∈ d →
      (∀ p ∈ l, p ≠ e.1 ∨ fetch p = none ∨ fetch p = some []) →
      e ∈ l.foldl (codeStep fetch) d := by
  intro l
  induction l with
  | nil => intro d he _; simpa using he
  | cons p ps ih =>
    intro d he hl
    rw [List.foldl_cons]
    apply ih
    · cases hf : fetch p with
      | none => simpa [codeStep, hf] using he
      | some c =>
        by_cases hc : c = []
        · simpa [codeStep, hf, hc] using he
        · simp only [codeStep, hf]
          rw [if_neg hc]
          have hpe : p ≠ e.1 := by
            rcases hl p (by simp) with h | h | h
            · exact h
            · rw [hf] at h; exact absurd h (by simp)
            · exfalso; rw [hf] at h; exact hc (by injection h)
          exact dictInsert_mem_of_ne _ he (fun hcon => hpe hcon.symm)
    · exact fun p2 hp2 => hl p2 (by simp [hp2])

lemma foldl_codeStep_forall_entry (fetch : Str → Option Str)
    (P : Str × Option Str → Prop) :
    ∀ (l : List Str) (d : List (Str × Option Str)), (∀ e ∈ d, P e) →
      (∀ p ∈ l, ∀ c, fetch p = some c → c ≠ [] → P (p, some (c.take 2000))) →
      ∀ e ∈ l.foldl (codeStep fetch) d, P e := by
  intro l
  induction l with
  | nil => intro d hd _; simpa using hd
  | cons p ps ih =>
    intro d hd hl
    rw [List.foldl_cons]
    apply ih
    · cases hf : fetch p with
      | none => simpa [codeStep, hf] using hd
      | some c =>
        by_cases hc : c = []
        · simpa [codeStep, hf, hc] using hd
        · simp only [codeStep, hf]
          rw [if_neg hc]
          exact dictInsert_forall_entry hd (hl p (by simp) c hf hc)
    · exact fun p2 hp2 c hfc hcne => hl p2 (by simp [hp2]) c hfc hcne

lemma foldl_codeStep_keys_ext (fetch : Str → Option Str) :
    ∀ (l : List Str) (d : List (Str × Option Str)),
      (∀ p ∈ l, isManifest p = true → p ∈ keysOf d) →
      ∃ ext, keysOf (l.foldl (codeStep fetch) d) = keysOf d ++ ext ∧
        ∀ k2 ∈ ext, isManifest k2 = false ∧ ∃ c, fetch k2 = some c ∧ c ≠ [] := by
  intro l
  induction l with
  | nil => intro d _; exact ⟨[], by simp, by simp⟩
  | cons p ps ih =>
    intro d hl
    rw [List.foldl_cons]
    cases hf : fetch p with
    | none =>
      have hstep : codeStep fetch d p = d := by simp [codeStep, hf]
      rw [hstep]
      exact ih d (fun p2 hp2 hm => hl p2 (by simp [hp2]) hm)
    | some c =>
      by_cases hc : c = []
      · have hstep : codeStep fetch d p = d := by simp [codeStep, hf, hc]
        rw [hstep]
        exact ih d (fun p2 hp2 hm => hl p2 (by simp [hp2]) hm)
      · have hstep : codeStep fetch d p = dictInsert d p (some (c.take 2000)) := by
          simp only [codeStep, hf]
          rw [if_neg hc]
        rw [hstep]
        by_cases hmem : p ∈ keysOf d
        · have hkeys := keysOf_dictInsert_mem (some (c.take 2000)) hmem
          obtain ⟨ext, hext, hprop⟩ := ih (dictInsert d p (some (c.take 2000)))
            (fun p2 hp2 hm => by
              rw [hkeys]
              exact hl p2 (by simp [hp2]) hm)
          exact ⟨ext, by rw [hext, hkeys], hprop⟩
        · have hman : isManifest p = false := by
            by_contra hcon
            rw [Bool.not_eq_false] at hcon
            exact hmem (hl p (by simp) hcon)
          have hkeys := keysOf_dictInsert_not_mem (some (c.take 2000)) hmem
          obtain ⟨ext, hext, hprop⟩ := ih (dictInsert d p (some (c.take 2000)))
            (fun p2 hp2 hm => by
              rw [hkeys]
              exact List.mem_append_left _ (hl p2 (by simp [hp2]) hm))
          refine ⟨p :: ext, ?_, ?_⟩
          · rw [hext, hkeys, List.append_assoc]
            rfl
          · intro k2 hk2
            rcases List.mem_cons.mp hk2 with rfl | hk2in
            · exact ⟨hman, c, hf, hc⟩
            · exact hprop k2 hk2in

lemma foldl_selStep_fst_forall (fetch : Str → Option Str)
    (P : Str × Option Str → Prop)
    (hP : ∀ path, isSkipped path = false → isManifest path = true →
      P (path, fetch path)) :
    ∀ (l : List TreeItem) (acc : List (Str × Option Str) × List Str),
      (∀ e ∈ acc.1, P e) → ∀ e ∈ (l.foldl (selStep fetch) acc).1, P e := by
  intro l
  induction l with
  | nil => intro acc hacc; simpa using hacc
  | cons it its ih =>
    intro acc hacc
    rw [List.foldl_cons]
    apply ih
    rw [selStep_eq]
    split
    · split
      · exact hacc
      · next hskip =>
        show ∀ e ∈ (if isManifest it.path then
            dictInsert acc.1 it.path (fetch it.path) else acc.1), P e
        split
        · next hman =>
          exact dictInsert_forall_entry hacc
            (hP it.path (by simpa using hskip) hman)
        · exact hacc
    · exact hacc

lemma foldl_selStep_snd (fetch : Str → Option Str) :
    ∀ (l : List TreeItem) (acc : List (Str × Option Str) × List Str),
      (l.foldl (selStep fetch) acc).2 = acc.2 ++ collectCode l := by
  intro l
  induction l with
  | nil => intro acc; simp [collectCode]
  | cons it its ih =>
    intro acc
    rw [List.foldl_cons, ih]
    rw [selStep_eq]
    by_cases hb : it.itemType = "blob".toList
    · by_cases hs : isSkipped it.path = true
      · rw [if_pos hb, if_pos hs]
        simp [collectCode, List.filter_cons, hb, hs]
      · by_cases hcode : isCode it.path = true
        · rw [if_pos hb, if_neg hs]
          simp [collectCode, List.filter_cons, hb, hs, hcode]
        · rw [if_pos hb, if_neg hs]
          simp [collectCode, List.filter_cons, hb, hs, hcode]
    · rw [if_neg hb]
      simp only [collectCode, List.filter_cons]
      have : decide (it.itemType = "blob".toList) = false := by simpa using hb
      rw [this]
      simp

lemma foldl_selStep_keys_mono (fetch : Str → Option Str) :
    ∀ (l : List TreeItem) (acc : List (Str × Option Str) × List Str) {a : Str},
      a ∈ keysOf acc.1 → a ∈ keysOf (l.foldl (selStep fetch) acc).1 := by
  intro l
  induction l with
  | nil => intro acc a h; simpa using h
  | cons it its ih =>
    intro acc a h
    rw [List.foldl_cons]
    apply ih
    rw [selStep_eq]
    split
    · split
      · exact h
      · show a ∈ keysOf (if isManifest it.path then
            dictInsert acc.1 it.path (fetch it.path) else acc.1)
        split
        · exact keysOf_dictInsert_mono _ _ h
        · exact h
    · exact h

lemma foldl_selStep_manifest_mem (fetch : Str → Option Str) :
    ∀ (l : List TreeItem) (acc : List (Str × Option Str) × List Str)
      {it : TreeItem}, it ∈ l →
      it.itemType = "blob".toList → isSkipped it.path = false →
      isManifest it.path = true →
      it.path ∈ keysOf (l.foldl (selStep fetch) acc).1 := by
  intro l
  induction l with
  | nil => intro acc it h; simp at h
  | cons a as ih =>
    intro acc it hmem hb hs hm
    rw [List.foldl_cons]
    rcases List.mem_cons.mp hmem with rfl | hin
    · apply foldl_selStep_keys_mono
      rw [selStep_eq, if_pos hb, if_neg (by simp [hs])]
      show it.path ∈ keysOf (if isManifest it.path then
          dictInsert acc.1 it.path (fetch it.path) else acc.1)
      rw [if_pos hm]
      exact mem_keysOf_dictInsert_self _ _ _
    · exact ih _ hin hb hs hm

lemma foldl_selStep_link (fetch : Str → Option Str) :
    ∀ (l : List TreeItem) (acc : List (Str × Option Str) × List Str),
      (∀ p ∈ acc.2, isManifest p = true → p ∈ keysOf acc.1) →
      ∀ p ∈ (l.foldl (selStep fetch) acc).2, isManifest p = true →
        p ∈ keysOf (l.foldl (selStep fetch) acc).1 := by
  intro l
  induction l with
  | nil => intro acc h; simpa using h
  | cons it its ih =>
    intro acc hacc
    rw [List.foldl_cons]
    apply ih
    intro p hp hm
    rw [selStep_eq] at hp ⊢
    by_cases hb : it.itemType = "blob".toList
    · by_cases hs : isSkipped it.path = true
      · rw [if_pos hb, if_pos hs] at hp ⊢
        exact hacc p hp hm
      · rw [if_pos hb, if_neg hs] at hp ⊢
        have hp2 : p ∈ (if isCode it.path then acc.2 ++ [it.path] else acc.2) := hp
        show p ∈ keysOf (if isManifest it.path then
            dictInsert acc.1 it.path (fetch it.path) else acc.1)
        have hcases : p ∈ acc.2 ∨ p = it.path := by
          by_cases hcode : isCode it.path = true
          · rw [if_pos hcode] at hp2
            rcases List.mem_append.mp hp2 with h | h
            · exact Or.inl h
            · exact Or.inr (List.mem_singleton.mp h)
          · rw [if_neg hcode] at hp2
            exact Or.inl hp2
        rcases hcases with hpm | rfl
        · split
          · exact keysOf_dictInsert_mono _ _ (hacc p hpm hm)
          · exact hacc p hpm hm
        · rw [if_pos hm]
          exact mem_keysOf_dictInsert_self _ _ _
    · rw [if_neg hb] at hp ⊢
      exact hacc p hp hm

/-! ### Claims C3, C4, C10: the file selector -/

/-- C3, counterexample: with a tree containing only the manifest file
`requirements.txt` and every content fetch failing, the selector result still
contains the path as a key (with a null value), refuting the claim that a
failed fetch leaves the path out of the result entirely. -/
theorem c3_counterexample :
    get_important_files (fun _ => none)
        (.ok [⟨"requirements.txt".toList, "blob".toList⟩]) =
      [("requirements.txt".toList, none)] ∧
    "requirements.txt".toList ∈ keysOf (get_important_files (fun _ => none)
      (.ok [⟨"requirements.txt".toList, "blob".toList⟩])) := by
  have h : get_important_files (fun _ => none)
      (.ok [⟨"requirements.txt".toList, "blob".toList⟩]) =
      [("requirements.txt".toList, none)] := rfl
  exact ⟨h, by rw [h]; decide⟩

/-- C3, amended: a code-extension file whose fetch fails is silently omitted
(no key for it appears unless the path also matches a manifest name), and the
overall call still succeeds; but a manifest-matched file whose fetch fails is
NOT omitted — its path appears as a key bound to an absent (null) content. -/
theorem c3_fetch_failure_handling :
    (∀ (fetch : Str → Option Str) (tree : List TreeItem) (it : TreeItem),
      it ∈ tree → it.itemType = "blob".toList → isSkipped it.path = false →
      isManifest it.path = true → fetch it.path = none →
      (it.path, none) ∈ get_important_files fetch (.ok tree))
    ∧ (∀ (fetch : Str → Option Str) (tree : List TreeItem) (p : Str),
      isManifest p = false → fetch p = none →
      p ∉ keysOf (get_important_files fetch (.ok tree))) := by
  constructor
  · intro fetch tree it hmem hb hs hm hf
    show (it.path, none) ∈
      (((tree.foldl (selStep fetch) ([], [])).2.take 5).foldl (codeStep fetch)
        (tree.foldl (selStep fetch) ([], [])).1)
    have hval : ∀ e ∈ (tree.foldl (selStep fetch) ([], [])).1, e.2 = fetch e.1 :=
      foldl_selStep_fst_forall fetch (fun e => e.2 = fetch e.1)
        (fun path _ _ => rfl) tree ([], []) (by simp)
    have hkey : it.path ∈ keysOf (tree.foldl (selStep fetch) ([], [])).1 :=
      foldl_selStep_manifest_mem fetch tree ([], []) hmem hb hs hm
    rw [keysOf, List.mem_map] at hkey
    obtain ⟨e, he, hek⟩ := hkey
    have he2 : e.2 = fetch e.1 := hval e he
    have heq : e = (it.path, none) := by
      have hsplit : e = (e.1, e.2) := rfl
      rw [hsplit, hek, he2, hek, hf]
    rw [← heq]
    apply foldl_codeStep_mem_preserved fetch _ _ he
    intro p hp
    by_cases hpe : p = e.1
    · right; left; rw [hpe, hek, hf]
    · exact Or.inl hpe
  · intro fetch tree p hm hf
    show p ∉ keysOf (((tree.foldl (selStep fetch) ([], [])).2.take 5).foldl
      (codeStep fetch) (tree.foldl (selStep fetch) ([], [])).1)
    have hlink : ∀ q ∈ (tree.foldl (selStep fetch) ([], [])).2.take 5,
        isManifest q = true →
        q ∈ keysOf (tree.foldl (selStep fetch) ([], [])).1 :=
      fun q hq hqm => foldl_selStep_link fetch tree ([], []) (by simp) q
        (List.take_subset _ _ hq) hqm
    obtain ⟨ext, hext, hprop⟩ := foldl_codeStep_keys_ext fetch _ _ hlink
    rw [hext]
    intro hcon
    rcases List.mem_append.mp hcon with h | h
    · have hall : ∀ e ∈ (tree.foldl (selStep fetch) ([], [])).1,
          isManifest e.1 = true :=
        foldl_selStep_fst_forall fetch (fun e => isManifest e.1 = true)
          (fun _ _ hman => hman) tree ([], []) (by simp)
      rw [keysOf, List.mem_map] at h
      obtain ⟨e, he, hek⟩ := h
      rw [← hek, hall e he] at hm
      exact absurd hm (by simp)
    · obtain ⟨-, c, hc, -⟩ := hprop p h
      rw [hf] at hc
      exact absurd hc (by simp)

/-- Witness for C3 amended: a failing manifest fetch leaves the key with a
null value, and a failing code-file fetch leaves no key. -/
theorem c3_fetch_failure_handling_witness :
    ("requirements.txt".toList, (none : Option Str)) ∈
      get_important_files (fun _ => none)
        (.ok [⟨"requirements.txt".toList, "blob".toList⟩]) ∧
    "main.py".toList ∉ keysOf (get_important_files (fun _ => none)
      (.ok [⟨"main.py".toList, "blob".toList⟩])) := by
  constructor
  · exact c3_fetch_failure_handling.1 (fun _ => none)
      [⟨"requirements.txt".toList, "blob".toList⟩]
      ⟨"requirements.txt".toList, "blob".toList⟩
      (by decide) (by decide) (by decide) (by decide) rfl
  · exact c3_fetch_failure_handling.2 (fun _ => none)
      [⟨"main.py".toList, "blob".toList⟩] "main.py".toList (by decide) rfl

/-- C4, counterexample: the path `Gemfile.rb` matches the manifest name
`Gemfile` by substring AND the code extension `.rb`, so after the manifest
pass stores its full content the code pass overwrites it with the 2000-character
truncation: a matched manifest file does not keep its full untruncated
content. -/
theorem c4_counterexample :
    isManifest "Gemfile.rb".toList = true ∧
    isCode "Gemfile.rb".toList = true ∧
    get_important_files (fun _ => some (List.replicate 2001 'a'))
        (.ok [⟨"Gemfile.rb".toList, "blob".toList⟩]) =
      [("Gemfile.rb".toList, some ((List.replicate 2001 'a').take 2000))] ∧
    (List.replicate 2001 'a').take 2000 ≠ List.replicate 2001 'a' := by
  refine ⟨by decide, by decide, by rfl, ?_⟩
  intro h
  have hlen := congrArg List.length h
  rw [List.length_take, List.length_replicate] at hlen
  omega

/-- C4, amended: the selector returns at most 5 entries classified as pure
code files (code extension, no manifest match); every matched manifest blob
appears as a key, and keeps its full fetched content whenever its path does
not also match a code extension (a path matching both can be overwritten with
the 2000-character cap, see the counterexample); every entry that matches no
manifest name stems from the first 5 collected code files and holds a
nonempty fetched content truncated to 2000 characters; and no entry's path
contains an excluded directory marker. -/
theorem c4_selector_bounds (fetch : Str → Option Str) (tree : List TreeItem) :
    (get_important_files fetch (.ok tree)).countP
        (fun e => isCode e.1 && !isManifest e.1) ≤ 5
    ∧ (∀ it : TreeItem, it ∈ tree → it.itemType = "blob".toList →
        isSkipped it.path = false → isManifest it.path = true →
        it.path ∈ keysOf (get_important_files fetch (.ok tree)) ∧
        (isCode it.path = false →
          (it.path, fetch it.path) ∈ get_important_files fetch (.ok tree)))
    ∧ (∀ e ∈ get_important_files fetch (.ok tree), isManifest e.1 = false →
        e.1 ∈ (collectCode tree).take 5 ∧
        ∃ c, fetch e.1 = some c ∧ c ≠ [] ∧ e.2 = some (c.take 2000))
    ∧ (∀ e ∈ get_important_files fetch (.ok tree), isSkipped e.1 = false) := by
  have hsnd : (tree.foldl (selStep fetch) ([], [])).2 = collectCode tree := by
    rw [foldl_selStep_snd]
    rfl
  have hR : get_important_files fetch (.ok tree) =
      ((collectCode tree).take 5).foldl (codeStep fetch)
        (tree.foldl (selStep fetch) ([], [])).1 := by
    show (((tree.foldl (selStep fetch) ([], [])).2.take 5).foldl (codeStep fetch)
      (tree.foldl (selStep fetch) ([], [])).1) = _
    rw [hsnd]
  have hman_all : ∀ e ∈ (tree.foldl (selStep fetch) ([], [])).1,
      isManifest e.1 = true :=
    foldl_selStep_fst_forall fetch (fun e => isManifest e.1 = true)
      (fun _ _ hman => hman) tree ([], []) (by simp)
  have hval : ∀ e ∈ (tree.foldl (selStep fetch) ([], [])).1, e.2 = fetch e.1 :=
    foldl_selStep_fst_forall fetch (fun e => e.2 = fetch e.1)
      (fun path _ _ => rfl) tree ([], []) (by simp)
  have hskip_all : ∀ e ∈ (tree.foldl (selStep fetch) ([], [])).1,
      isSkipped e.1 = false :=
    foldl_selStep_fst_forall fetch (fun e => isSkipped e.1 = false)
      (fun path hskip _ => hskip) tree ([], []) (by simp)
  have hlink : ∀ q ∈ (collectCode tree).take 5, isManifest q = true →
      q ∈ keysOf (tree.foldl (selStep fetch) ([], [])).1 := by
    intro q hq hqm
    apply foldl_selStep_link fetch tree ([], []) (by simp) q _ hqm
    rw [hsnd]
    exact List.take_subset _ _ hq
  refine ⟨?_, ?_, ?_, ?_⟩
  · rw [hR]
    have h0 : (tree.foldl (selStep fetch) ([], [])).1.countP
        (fun e => isCode e.1 && !isManifest e.1) = 0 := by
      rw [List.countP_eq_zero]
      intro e he
      simp [hman_all e he]
    have h1 := foldl_codeStep_count_le fetch
      (fun k => isCode k && !isManifest k) ((collectCode tree).take 5)
      (tree.foldl (selStep fetch) ([], [])).1
    have h2 : ((collectCode tree).take 5).length ≤ 5 := List.length_take_le 5 _
    omega
  · intro it hmem hb hs hm
    obtain ⟨ext, hext, hprop⟩ := foldl_codeStep_keys_ext fetch _ _ hlink
    constructor
    · rw [hR, hext]
      exact List.mem_append_left _
        (foldl_selStep_manifest_mem fetch tree ([], []) hmem hb hs hm)
    · intro hcode
      rw [hR]
      have hkey : it.path ∈ keysOf (tree.foldl (selStep fetch) ([], [])).1 :=
        foldl_selStep_manifest_mem fetch tree ([], []) hmem hb hs hm
      rw [keysOf, List.mem_map] at hkey
      obtain ⟨e, he, hek⟩ := hkey
      have heq : e = (it.path, fetch it.path) := by
        have hsplit : e = (e.1, e.2) := rfl
        rw [hsplit, hek, hval e he, hek]
      rw [← heq]
      apply foldl_codeStep_mem_preserved fetch _ _ he
      intro p hp
      left
      intro hcon
      have hpcf : p ∈ collectCode tree := List.take_subset 5 _ hp
      have hpcode := (mem_collectCode hpcf).2
      rw [hcon, hek] at hpcode
      rw [hpcode] at hcode
      exact absurd hcode (by simp)
  · intro e he hm
    rw [hR] at he
    have hPall := foldl_codeStep_forall_entry fetch
      (fun e => isManifest e.1 = true ∨ (e.1 ∈ (collectCode tree).take 5 ∧
        ∃ c, fetch e.1 = some c ∧ c ≠ [] ∧ e.2 = some (c.take 2000)))
      ((collectCode tree).take 5) (tree.foldl (selStep fetch) ([], [])).1
      (fun e2 he2 => Or.inl (hman_all e2 he2))
      (fun p hp c hfc hcne => Or.inr ⟨hp, c, hfc, hcne, rfl⟩)
      e he
    rcases hPall with hm2 | hshape
    · rw [hm2] at hm
      exact absurd hm (by simp)
    · exact hshape
  · intro e he
    rw [hR] at he
    exact foldl_codeStep_forall_entry fetch (fun e => isSkipped e.1 = false)
      ((collectCode tree).take 5) (tree.foldl (selStep fetch) ([], [])).1
      hskip_all
      (fun p hp c hfc hcne => (mem_collectCode (List.take_subset 5 _ hp)).1)
      e he

/-- Witness for C4 amended, on a tree with one excluded file, one manifest
file and two code files (fetch always succeeds with a short content). -/
theorem c4_selector_bounds_witness :
    (get_important_files (fun _ => some "x".toList)
        (.ok [⟨"dist/a.py".toList, "blob".toList⟩,
              ⟨"requirements.txt".toList, "blob".toList⟩,
              ⟨"m.py".toList, "blob".toList⟩])).countP
        (fun e => isCode e.1 && !isManifest e.1) ≤ 5 ∧
    "requirements.txt".toList ∈ keysOf (get_important_files (fun _ => some "x".toList)
      (.ok [⟨"dist/a.py".toList, "blob".toList⟩,
            ⟨"requirements.txt".toList, "blob".toList⟩,
            ⟨"m.py".toList, "blob".toList⟩])) ∧
    (∀ e ∈ get_important_files (fun _ => some "x".toList)
      (.ok [⟨"dist/a.py".toList, "blob".toList⟩,
            ⟨"requirements.txt".toList, "blob".toList⟩,
            ⟨"m.py".toList, "blob".toList⟩]), isSkipped e.1 = false) := by
  have h := c4_selector_bounds (fun _ => some "x".toList)
    [⟨"dist/a.py".toList, "blob".toList⟩,
     ⟨"requirements.txt".toList, "blob".toList⟩,
     ⟨"m.py".toList, "blob".toList⟩]
  refine ⟨h.1, ?_, h.2.2.2⟩
  exact (h.2.1 ⟨"requirements.txt".toList, "blob".toList⟩ (by decide) (by decide)
    (by decide) (by decide)).1

lemma indexOf_append_mem {a : Str} :
    ∀ {l1 : List Str} (l2 : List Str), a ∈ l1 →
      List.indexOf a (l1 ++ l2) = List.indexOf a l1 := by
  intro l1
  induction l1 with
  | nil => intro l2 h; simp at h
  | cons b bs ih =>
    intro l2 h
    rw [List.cons_append, List.indexOf_cons, List.indexOf_cons]
    cases hb : (b == a)
    · have hmem : a ∈ bs := by
        rcases List.mem_cons.mp h with heq | h2
        · exfalso
          rw [heq] at hb
          simp at hb
        · exact h2
      rw [Bool.cond_false, Bool.cond_false, ih l2 hmem]
    · rfl

lemma indexOf_append_not_mem {a : Str} :
    ∀ {l1 : List Str} (l2 : List Str), a ∉ l1 →
      List.indexOf a (l1 ++ l2) = l1.length + List.indexOf a l2 := by
  intro l1
  induction l1 with
  | nil => intro l2 h; simp
  | cons b bs ih =>
    intro l2 h
    rw [List.cons_append, List.indexOf_cons]
    have hb : (b == a) = false := by
      rw [beq_eq_false_iff_ne]
      intro hcon
      rw [hcon] at h
      exact h (List.mem_cons_self a bs)
    have hmem : a ∉ bs := fun h2 => h (List.mem_cons_of_mem b h2)
    rw [hb, Bool.cond_false, ih l2 hmem, List.length_cons]
    omega

lemma indexOf_lt_length_mem {a : Str} :
    ∀ {l : List Str}, a ∈ l → List.indexOf a l < l.length := by
  intro l
  induction l with
  | nil => intro h; simp at h
  | cons b bs ih =>
    intro h
    rw [List.indexOf_cons]
    cases hb : (b == a)
    · have hmem : a ∈ bs := by
        rcases List.mem_cons.mp h with heq | h2
        · exfalso
          rw [heq] at hb
          simp at hb
        · exact h2
      have := ih hmem
      simp only [Bool.cond_false, List.length_cons]
      omega
    · simp [List.length_cons]

/-- C10: in the selector's result, every key matching a manifest name appears
strictly earlier in iteration order than every code-file key matching no
manifest name, because manifest keys are inserted during the tree traversal
and new code-file keys are only appended afterwards. -/
theorem c10_manifest_before_code (fetch : Str → Option Str)
    (tree : List TreeItem) (k1 k2 : Str)
    (h1 : k1 ∈ keysOf (get_important_files fetch (.ok tree)))
    (h2 : k2 ∈ keysOf (get_important_files fetch (.ok tree)))
    (hm1 : isManifest k1 = true) (hm2 : isManifest k2 = false)
    (hc2 : isCode k2 = true) :
    (keysOf (get_important_files fetch (.ok tree))).indexOf k1 <
      (keysOf (get_important_files fetch (.ok tree))).indexOf k2 := by
  have hR : get_important_files fetch (.ok tree) =
      (((tree.foldl (selStep fetch) ([], [])).2.take 5)).foldl (codeStep fetch)
        (tree.foldl (selStep fetch) ([], [])).1 := rfl
  have hlink : ∀ q ∈ (tree.foldl (selStep fetch) ([], [])).2.take 5,
      isManifest q = true →
      q ∈ keysOf (tree.foldl (selStep fetch) ([], [])).1 :=
    fun q hq hqm => foldl_selStep_link fetch tree ([], []) (by simp) q
      (List.take_subset _ _ hq) hqm
  obtain ⟨ext, hext, hprop⟩ := foldl_codeStep_keys_ext fetch _ _ hlink
  rw [hR, hext] at h1 h2 ⊢
  have hman_all : ∀ e ∈ (tree.foldl (selStep fetch) ([], [])).1,
      isManifest e.1 = true :=
    foldl_selStep_fst_forall fetch (fun e => isManifest e.1 = true)
      (fun _ _ hman => hman) tree ([], []) (by simp)
  have hk1d : k1 ∈ keysOf (tree.foldl (selStep fetch) ([], [])).1 := by
    rcases List.mem_append.mp h1 with h | h
    · exact h
    · rw [(hprop k1 h).1] at hm1
      exact absurd hm1 (by simp)
  have hk2d : k2 ∉ keysOf (tree.foldl (selStep fetch) ([], [])).1 := by
    intro hcon
    rw [keysOf, List.mem_map] at hcon
    obtain ⟨e, he, hek⟩ := hcon
    rw [← hek, hman_all e he] at hm2
    exact absurd hm2 (by simp)
  rw [indexOf_append_mem ext hk1d, indexOf_append_not_mem ext hk2d]
  have hlt := indexOf_lt_length_mem hk1d
  omega

/-- Witness for C10 at a concrete tree: `requirements.txt` (manifest, second
in tree order) still precedes `a.py` (code file, first in tree order) in the
result's iteration order. -/
theorem c10_manifest_before_code_witness :
    (keysOf (get_important_files (fun _ => some "x".toList)
        (.ok [⟨"a.py".toList, "blob".toList⟩,
              ⟨"requirements.txt".toList, "blob".toList⟩]))).indexOf
      "requirements.txt".toList <
    (keysOf (get_important_files (fun _ => some "x".toList)
        (.ok [⟨"a.py".toList, "blob".toList⟩,
              ⟨"requirements.txt".toList, "blob".toList⟩]))).indexOf
      "a.py".toList :=
  c10_manifest_before_code (fun _ => some "x".toList)
    [⟨"a.py".toList, "blob".toList⟩, ⟨"requirements.txt".toList, "blob".toList⟩]
    "requirements.txt".toList "a.py".toList
    (by decide) (by decide) (by decide) (by decide) (by decide)

/-! ### Claim C9: the prompt builder -/

lemma infix_append_right {l y : Str} (x : Str) (h : l <:+: y) : l <:+: x ++ y :=
  h.trans (List.suffix_append x y).isInfix

lemma infix_append_left {l x : Str} (y : Str) (h : l <:+: x) : l <:+: x ++ y :=
  h.trans (List.prefix_append x y).isInfix

lemma seqFiles_map_some : ∀ files : List (Str × Str),
    seqFiles (files.map (fun fc => (fc.1, some fc.2))) = some files := by
  intro files
  induction files with
  | nil => rfl
  | cons f fs ih => simp [seqFiles, ih]

set_option maxRecDepth 8000 in
/-- C9: with an absent description and no selected files, the prompt contains
the literal "No description provided"; absent language/license fields produce
the "Not specified" placeholder; the fixed instruction suffix with all seven
section titles is present; and prompt construction is a total function that
never fails when every selected content is present. -/
theorem c9_prompt_builder (info : RepoInfo) (hdesc : info.description = none) :
    buildPrompt info [] = promptHeader info ++ promptSuffix
    ∧ "No description provided".toList <:+: buildPrompt info []
    ∧ (info.language = none → "Not specified".toList <:+: buildPrompt info [])
    ∧ (info.license = none → "Not specified".toList <:+: buildPrompt info [])
    ∧ (∀ sec ∈ sectionTitles, sec <:+: buildPrompt info [])
    ∧ promptSuffix <:+ buildPrompt info []
    ∧ buildPromptE info [] = .ok (buildPrompt info [])
    ∧ (∀ files : List (Str × Str),
        buildPromptE info (files.map (fun fc => (fc.1, some fc.2))) =
          .ok (buildPrompt info files)) := by
  have hb : buildPrompt info [] = promptHeader info ++ promptSuffix := by
    simp only [buildPrompt, List.foldl_nil, List.append_nil]
  have hsufx : promptSuffix <:+ buildPrompt info [] := by
    rw [hb]
    exact List.suffix_append _ _
  refine ⟨hb, ?_, ?_, ?_, ?_, hsufx, rfl, ?_⟩
  · rw [hb]
    apply infix_append_left
    rw [promptHeader, hdesc]
    apply infix_append_left
    apply infix_append_left
    apply infix_append_left
    apply infix_append_left
    apply infix_append_left
    apply infix_append_left
    apply infix_append_left
    apply infix_append_left
    apply infix_append_left
    apply infix_append_right
    exact List.infix_refl _
  · intro hlang
    rw [hb]
    apply infix_append_left
    rw [promptHeader, hlang]
    apply infix_append_left
    apply infix_append_left
    apply infix_append_left
    apply infix_append_left
    apply infix_append_left
    apply infix_append_left
    apply infix_append_left
    apply infix_append_right
    exact List.infix_refl _
  · intro hlic
    have hlt : licenseText info = "Not specified".toList := by
      simp [licenseText, hlic]
    rw [hb]
    apply infix_append_left
    rw [promptHeader, hlt]
    apply infix_append_left
    apply infix_append_right
    exact List.infix_refl _
  · intro sec hsec
    have hall : ∀ s ∈ sectionTitles, s <:+: promptSuffix := by decide
    exact (hall sec hsec).trans hsufx.isInfix
  · intro files
    simp [buildPromptE, seqFiles_map_some]

/-- Witness for C9 at the metadata `{name: demo, stars: 3}` with every
optional field absent. -/
theorem c9_prompt_builder_witness :
    "No description provided".toList <:+:
      buildPrompt ⟨some "demo".toList, none, none, some 3, none, none⟩ [] ∧
    promptSuffix <:+
      buildPrompt ⟨some "demo".toList, none, none, some 3, none, none⟩ [] ∧
    "Not specified".toList <:+:
      buildPrompt ⟨some "demo".toList, none, none, some 3, none, none⟩ [] := by
  have h := c9_prompt_builder ⟨some "demo".toList, none, none, some 3, none, none⟩ rfl
  exact ⟨h.2.1, h.2.2.2.2.2.1, h.2.2.1 rfl⟩

/-! ### Claims C1, C2: the request handler -/

/-- C1, counterexample: when the generative call throws (here with message
`boom`), the handler returns HTTP 200 with `success: true` and the error text
inside the `readme` field — not a 500 error envelope — refuting the claim
that generation failures are surfaced as 500. -/
theorem c1_counterexample :
    api_generate_readme
        ⟨200, ⟨some "demo".toList, none, none, some 3, none, none⟩,
         200, [], 200, [], fun _ => none, fun _ => .error "boom".toList⟩
        (some "https://github.com/o/r".toList) "/o/r".toList =
      (200, .success ("Error generating README: boom".toList)
        ⟨some "demo".toList, none, none, some 3, none⟩) ∧
    "Error generating README: ".toList <+: "Error generating README: boom".toList := by
  exact ⟨by rfl, by decide⟩

/-- C1, amended: a generative-service failure is caught inside
`generate_readme` and turned into the string `Error generating README: {e}`,
which the handler returns as a 200 success response whose readme field is
that error string; it is never surfaced as a 500 response. -/
theorem c1_generation_failure_as_success (o : Oracles) (url urlPath e p : Str)
    (hurl1 : url ≠ [])
    (hurl2 : strIn "github.com".toList url = true)
    (hparse : ∃ pr, parse_github_url urlPath = .ok pr)
    (hmeta : o.metaStatus = 200)
    (hprompt : buildPromptE o.metaBody
      (get_important_files o.fileFetch (get_file_tree o)) = .ok p)
    (hgen : o.gen p = .error e) :
    api_generate_readme o (some url) urlPath =
      (200, .success ("Error generating README: ".toList ++ e)
        ⟨o.metaBody.name, o.metaBody.description, o.metaBody.language,
         o.metaBody.stargazers_count, o.metaBody.forks_count⟩) := by
  obtain ⟨pr, hpr⟩ := hparse
  simp [api_generate_readme, hurl1, hurl2, hpr, get_repo_info, hmeta,
    generate_readme, hprompt, hgen]
  exact hurl2

/-- Witness for C1 amended, with a generation call that throws `boom`. -/
theorem c1_generation_failure_as_success_witness :
    api_generate_readme
        ⟨200, ⟨some "demo".toList, none, none, some 3, none, none⟩,
         200, [], 200, [], fun _ => none, fun _ => .error "boom".toList⟩
        (some "https://github.com/octo/demo".toList) "/octo/demo".toList =
      (200, .success ("Error generating README: ".toList ++ "boom".toList)
        ⟨some "demo".toList, none, none, some 3, none⟩) :=
  c1_generation_failure_as_success
    ⟨200, ⟨some "demo".toList, none, none, some 3, none, none⟩,
     200, [], 200, [], fun _ => none, fun _ => .error "boom".toList⟩
    "https://github.com/octo/demo".toList "/octo/demo".toList
    "boom".toList
    (buildPrompt ⟨some "demo".toList, none, none, some 3, none, none⟩ [])
    (by decide) (by decide) ⟨("octo".toList, "demo".toList), by rfl⟩
    rfl rfl rfl

/-- C2, counterexample: with metadata OK but both tree fetches failing
(404 on `main` and `master`), the raised tree-fetch exception is swallowed by
the `try` in `get_important_files` and the request completes as a 200 success
— the failure does not propagate as a 500 error. -/
theorem c2_counterexample :
    get_file_tree ⟨200, ⟨some "demo".toList, none, none, some 3, none, none⟩,
        404, [], 404, [], fun _ => none, fun _ => .ok "# Demo\nSome text".toList⟩ =
      .error "Failed to fetch file tree: 404".toList ∧
    api_generate_readme
        ⟨200, ⟨some "demo".toList, none, none, some 3, none, none⟩,
         404, [], 404, [], fun _ => none, fun _ => .ok "# Demo\nSome text".toList⟩
        (some "https://github.com/octo/demo".toList) "/octo/demo".toList =
      (200, .success ("# Demo\nSome text".toList)
        ⟨some "demo".toList, none, none, some 3, none⟩) := by
  exact ⟨by rfl, by rfl⟩

/-- C2, amended: a non-success metadata status always propagates to the top
and is surfaced as a 500 envelope carrying the status detail; but a tree
fetch that fails on both branches is caught inside `get_important_files`
(yielding an empty selection), and when generation then succeeds the request
returns a 200 success — no 500 is produced for the tree failure. -/
theorem c2_upstream_fetch_errors (o : Oracles) (url urlPath : Str)
    (hurl1 : url ≠ [])
    (hurl2 : strIn "github.com".toList url = true)
    (hparse : ∃ pr, parse_github_url urlPath = .ok pr) :
    (o.metaStatus ≠ 200 →
      api_generate_readme o (some url) urlPath =
        (500, .failure ("Failed to fetch repo info: ".toList ++ natStr o.metaStatus)))
    ∧ (o.treeMainStatus ≠ 200 → o.treeMasterStatus ≠ 200 → o.metaStatus = 200 →
        get_important_files o.fileFetch (get_file_tree o) = [] ∧
        (∀ t, o.gen (buildPrompt o.metaBody []) = .ok t →
          api_generate_readme o (some url) urlPath =
            (200, .success (cleanReadme t)
              ⟨o.metaBody.name, o.metaBody.description, o.metaBody.language,
               o.metaBody.stargazers_count, o.metaBody.forks_count⟩))) := by
  obtain ⟨pr, hpr⟩ := hparse
  constructor
  · intro hmeta
    simp [api_generate_readme, hurl1, hurl2, hpr, get_repo_info, hmeta]
    exact hurl2
  · intro hmain hmaster hmeta
    have htree : get_file_tree o =
        .error ("Failed to fetch file tree: ".toList ++ natStr o.treeMasterStatus) := by
      simp [get_file_tree, hmain, hmaster]
    have hfiles : get_important_files o.fileFetch (get_file_tree o) = [] := by
      rw [htree]
      rfl
    refine ⟨hfiles, ?_⟩
    intro t hgen
    have hgenerate : generate_readme o.gen o.metaBody [] = .ok (cleanReadme t) := by
      simp [generate_readme, buildPromptE, seqFiles, hgen]
    simp [api_generate_readme, hurl1, hurl2, hpr, get_repo_info, hmeta, hfiles,
      hgenerate]
    exact hurl2

/-- Witness for C2 amended: a 404 metadata fetch yields the 500 envelope, and
a request with both tree fetches failing still returns a 200 success. -/
theorem c2_upstream_fetch_errors_witness :
    api_generate_readme
        ⟨404, ⟨some "demo".toList, none, none, some 3, none, none⟩,
         200, [], 200, [], fun _ => none, fun _ => .ok "# D".toList⟩
        (some "https://github.com/octo/demo".toList) "/octo/demo".toList =
      (500, .failure ("Failed to fetch repo info: ".toList ++ natStr 404)) ∧
    api_generate_readme
        ⟨200, ⟨some "demo".toList, none, none, some 3, none, none⟩,
         404, [], 404, [], fun _ => none, fun _ => .ok "# D".toList⟩
        (some "https://github.com/octo/demo".toList) "/octo/demo".toList =
      (200, .success (cleanReadme "# D".toList)
        ⟨some "demo".toList, none, none, some 3, none⟩) := by
  constructor
  · exact (c2_upstream_fetch_errors
      ⟨404, ⟨some "demo".toList, none, none, some 3, none, none⟩,
       200, [], 200, [], fun _ => none, fun _ => .ok "# D".toList⟩
      "https://github.com/octo/demo".toList "/octo/demo".toList
      (by decide) (by decide) ⟨("octo".toList, "demo".toList), by rfl⟩).1
      (by decide)
  · exact ((c2_upstream_fetch_errors
      ⟨200, ⟨some "demo".toList, none, none, some 3, none, none⟩,
       404, [], 404, [], fun _ => none, fun _ => .ok "# D".toList⟩
      "https://github.com/octo/demo".toList "/octo/demo".toList
      (by decide) (by decide) ⟨("octo".toList, "demo".toList), by rfl⟩).2
      (by decide) (by decide) rfl).2 "# D".toList rfl
